import Mathlib

/-!
Shallow embedding of openobserve's full-text `match_all` plan-rewrite pass
(src/service/search/datafusion/optimizer/rewrite_match.rs) and of the ingest
buffer entry envelope (src/common/infra/ingest_buffer/entry.rs), with theorems
settling the specification claims about them.

Modelling conventions:
- datafusion `Expr` / `LogicalPlan` trees are closed inductive types covering
  the node shapes this pass inspects or builds; a scalar UDF is identified by
  its name (the code only ever reads `func.name()`).
- Rust panics (`unwrap` on `None`, out-of-bounds indexing) are modelled as a
  distinguished `DataFusionError.Panic` outcome, so that "never panics" claims
  are statable; genuine `DataFusionError::Internal` errors keep their own
  constructor.
- Rust `String`s inside the ingest entry envelope are modelled as their UTF-8
  byte sequences (`List UInt8`); `String::from_utf8` applied to the bytes of a
  `String` is the identity, so the envelope round-trip is unaffected.
-/

namespace OpenObserve

/-- UDF name constants. Modelled from the spec: the three recognized
full-text call names (src cites `udf::match_all_udf`, not under `src/`);
the spec fixes the identifiers `match_all`, `match_all_raw`,
`match_all_raw_ignore_case`. -/
def MATCH_ALL_UDF_NAME : String := "match_all"

/-- See `MATCH_ALL_UDF_NAME`. -/
def MATCH_ALL_RAW_UDF_NAME : String := "match_all_raw"

/-- See `MATCH_ALL_UDF_NAME`. -/
def MATCH_ALL_RAW_IGNORE_CASE_UDF_NAME : String := "match_all_raw_ignore_case"

/-- datafusion `ScalarValue`, restricted to the variants this pass touches. -/
inductive ScalarValue : Type
  | Utf8 (s : Option String)
  | Int64 (i : Int)
deriving DecidableEq, Repr

/-- datafusion `Operator`, restricted to the variants this pass touches. -/
inductive Operator : Type
  | Or
  | And
  | Eq
  | LikeMatch
  | ILikeMatch
deriving DecidableEq, Repr

/-- datafusion `Expr` tree, covering the node shapes the rewrite inspects or
builds: literals, (optionally qualified) column references, binary
expressions, scalar-function calls (identified by the UDF name, since the
code only reads `func.name()`), and aliases. -/
inductive Expr : Type
  | Literal (v : ScalarValue)
  | Column (relation : Option String) (name : String)
  | BinaryExpr (left : Expr) (op : Operator) (right : Expr)
  | ScalarFunction (name : String) (args : List Expr)
  | Alias (e : Expr) (name : String)

/-- Rendering of an operator, used only to build display names and error
messages (the pass compares names only for equality). -/
def opName : Operator → String
  | .Or => "OR"
  | .And => "AND"
  | .Eq => "="
  | .LikeMatch => "~~"
  | .ILikeMatch => "~~*"

mutual

/-- Display/schema name of an expression. Modelled from the spec: the
framework's expression naming (datafusion's `schema_name`, not under
`src/`) is used only to preserve the predicate's display identity across
the rewrite; only equality vs. inequality of names matters to this pass. -/
def exprName : Expr → String
  | .Literal (.Utf8 (some s)) => s
  | .Literal (.Utf8 none) => "NULL"
  | .Literal (.Int64 i) => toString i
  | .Column none n => n
  | .Column (some r) n => r ++ "." ++ n
  | .BinaryExpr l op r => exprName l ++ " " ++ opName op ++ " " ++ exprName r
  | .ScalarFunction n args =>
      n ++ "(" ++ String.intercalate "," (exprNameList args) ++ ")"
  | .Alias _ n => n

/-- Helper of `exprName` over argument lists. -/
def exprNameList : List Expr → List String
  | [] => []
  | e :: es => exprName e :: exprNameList es

end

/-- Error outcome of the rewrite. `Internal` is `DataFusionError::Internal`;
`Panic` models a Rust panic (`unwrap` on `None`, index out of bounds), which
in Rust aborts rather than returning an error value. -/
inductive DataFusionError : Type
  | Internal (msg : String)
  | Panic (msg : String)
deriving DecidableEq, Repr

/-- datafusion `Transformed<T>`: the (possibly new) payload plus a flag
recording whether a change occurred. -/
structure Transformed (α : Type) : Type where
  data : α
  transformed : Bool
deriving DecidableEq, Repr

/-- `Transformed::yes`. -/
def Transformed.yes {α : Type} (d : α) : Transformed α := ⟨d, true⟩

/-- `Transformed::no`. -/
def Transformed.no {α : Type} (d : α) : Transformed α := ⟨d, false⟩

/-- `is_match_all` (rewrite_match.rs lines 93-102): the expression is a
scalar-function call bearing one of the three full-text UDF names. -/
def is_match_all : Expr → Bool
  | .ScalarFunction name _ =>
      name == MATCH_ALL_UDF_NAME
        || name == MATCH_ALL_RAW_IGNORE_CASE_UDF_NAME
        || name == MATCH_ALL_RAW_UDF_NAME
  | _ => false

mutual

/-- `Expr::exists` with a pure predicate: does any node of the tree satisfy
`p`? (datafusion's `exists` traverses top-down and short-circuits; the
result is the same as this any-node disjunction.) -/
def exprAny (p : Expr → Bool) : Expr → Bool
  | .Literal v => p (.Literal v)
  | .Column q n => p (.Column q n)
  | .BinaryExpr l op r => p (.BinaryExpr l op r) || exprAny p l || exprAny p r
  | .ScalarFunction n args => p (.ScalarFunction n args) || exprAnyList p args
  | .Alias e n => p (.Alias e n) || exprAny p e

/-- Helper of `exprAny` over argument lists. -/
def exprAnyList (p : Expr → Bool) : List Expr → Bool
  | [] => false
  | e :: es => exprAny p e || exprAnyList p es

end

/-- `utils::disjunction`. Modelled from the spec: combine the expressions
with logical OR, left-to-right (datafusion's helper is not under `src/`; it
left-folds `Expr::or` and yields nothing for an empty list). -/
def disjunction : List Expr → Option Expr
  | [] => none
  | e :: es => some (es.foldl (fun acc x => Expr.BinaryExpr acc .Or x) e)

/-- `MatchToFullTextMatch::f_up` (rewrite_match.rs lines 158-195): on a
scalar-function node named by one of the three full-text UDFs, demand a
`Utf8(Some _)` literal argument, pick `LikeMatch` for the raw variant and
`ILikeMatch` otherwise, build one pattern comparison per registered field
against the `%term%` pattern, and replace the call by their disjunction
(`disjunction(...).unwrap()` panics when the field list is empty; `args[0]`
panics when the argument list is empty). Any other node is untouched. -/
def MatchToFullTextMatch.f_up (fields : List String) (expr : Expr) :
    Except DataFusionError (Transformed Expr) :=
  match expr with
  | .ScalarFunction name args =>
      if name == MATCH_ALL_UDF_NAME
          || name == MATCH_ALL_RAW_IGNORE_CASE_UDF_NAME
          || name == MATCH_ALL_RAW_UDF_NAME then
        match args.head? with
        | none => .error (.Panic "index out of bounds: the len is 0")
        | some arg =>
          match arg with
          | .Literal (.Utf8 (some item)) =>
            let operator : Operator :=
              if name == MATCH_ALL_RAW_UDF_NAME then .LikeMatch else .ILikeMatch
            let pat : Expr := .Literal (.Utf8 (some ("%" ++ item ++ "%")))
            let expr_list : List Expr :=
              fields.map (fun field =>
                Expr.BinaryExpr (.Column none field) operator pat)
            match disjunction expr_list with
            | none => .error (.Panic "called Option::unwrap on a None value")
            | some new_expr => .ok (Transformed.yes new_expr)
          | other =>
            .error (.Internal
              ("Unexpected argument type for match_all() function: " ++
                exprName other))
      else
        .ok (Transformed.no expr)
  | _ => .ok (Transformed.no expr)

mutual

/-- `Expr::rewrite` with the `MatchToFullTextMatch` rewriter: bottom-up —
children are rewritten first, the node is rebuilt from the rewritten
children, then `f_up` is applied to it; `transformed` flags are OR-ed
(datafusion `TreeNode::rewrite` with the default `f_down`). -/
def rewriteBU (fields : List String) : Expr → Except DataFusionError (Transformed Expr)
  | .Literal v => MatchToFullTextMatch.f_up fields (.Literal v)
  | .Column q n => MatchToFullTextMatch.f_up fields (.Column q n)
  | .BinaryExpr l op r => do
      let tl ← rewriteBU fields l
      let tr ← rewriteBU fields r
      let tu ← MatchToFullTextMatch.f_up fields (.BinaryExpr tl.data op tr.data)
      pure ⟨tu.data, tl.transformed || tr.transformed || tu.transformed⟩
  | .ScalarFunction n args => do
      let ts ← rewriteBUList fields args
      let tu ← MatchToFullTextMatch.f_up fields
        (.ScalarFunction n (ts.map (fun t => t.data)))
      pure ⟨tu.data, ts.any (fun t => t.transformed) || tu.transformed⟩
  | .Alias e n => do
      let te ← rewriteBU fields e
      let tu ← MatchToFullTextMatch.f_up fields (.Alias te.data n)
      pure ⟨tu.data, te.transformed || tu.transformed⟩

/-- Helper of `rewriteBU` over argument lists. -/
def rewriteBUList (fields : List String) :
    List Expr → Except DataFusionError (List (Transformed Expr))
  | [] => pure []
  | e :: es => do
      let t ← rewriteBU fields e
      let ts ← rewriteBUList fields es
      pure (t :: ts)

end

/-- `expr_rewriter::rewrite_preserving_name`. Modelled from the spec: the
framework helper (not under `src/`) records the expression's display name,
rewrites, and re-aliases the result to the original name when the rewrite
changed the name, so output column naming is unaffected. -/
def rewrite_preserving_name (fields : List String) (e : Expr) :
    Except DataFusionError Expr := do
  let original := exprName e
  let t ← rewriteBU fields e
  pure (if exprName t.data == original then t.data else .Alias t.data original)

/-- datafusion `LogicalPlan`, restricted to the node shapes this pass
distinguishes: filters (one predicate expression plus an input), table scans
(only the `table_name` field is read by this pass), and representative other
nodes (projection, join, empty relation) that the rule passes through. -/
inductive LogicalPlan : Type
  | Filter (predicate : Expr) (input : LogicalPlan)
  | TableScan (table_name : String)
  | Projection (exprs : List Expr) (input : LogicalPlan)
  | Join (left : LogicalPlan) (right : LogicalPlan)
  | EmptyRelation

/-- `LogicalPlan::expressions()`: the expressions directly attached to one
plan node (a filter carries exactly its predicate; a projection its select
list; the other modelled nodes carry none). -/
def LogicalPlan.expressions : LogicalPlan → List Expr
  | .Filter predicate _ => [predicate]
  | .TableScan _ => []
  | .Projection exprs _ => exprs
  | .Join _ _ => []
  | .EmptyRelation => []

/-- datafusion `TreeNodeRecursion`, restricted to the two values
`TableNameVisitor` produces (it never uses `Jump`). -/
inductive TNRecursion : Type
  | Cont
  | Stop
deriving DecidableEq, Repr

/-- `TreeNode::visit` with `TableNameVisitor` (rewrite_match.rs lines
111-135): depth-first traversal, children before the node's `f_up`
(post-order); `f_up` on a table scan records `scan.table_name` and returns
`Stop`, which aborts the whole traversal (the ancestors' `f_up` calls are
skipped); `f_up` on every other node leaves the state alone and continues.
The `String` component is the visitor's `name` field. -/
def TableNameVisitor.visit : LogicalPlan → String → String × TNRecursion
  | .TableScan n, _ => (n, .Stop)
  | .Filter _ input, s => TableNameVisitor.visit input s
  | .Projection _ input, s => TableNameVisitor.visit input s
  | .Join l r, s =>
      match TableNameVisitor.visit l s with
      | (s', .Stop) => (s', .Stop)
      | (s', .Cont) => TableNameVisitor.visit r s'
  | .EmptyRelation, s => (s, .Cont)

/-- Rust `str::split` on a single separator character: every occurrence of
`c` splits, empty segments are kept, and the empty input yields one empty
segment. -/
def splitChar (c : Char) : List Char → List (List Char)
  | [] => [[]]
  | x :: xs =>
      if x = c then [] :: splitChar c xs
      else
        match splitChar c xs with
        | [] => [[x]]
        | s :: rest => (x :: s) :: rest

/-- `strip_prefix` (rewrite_match.rs lines 137-140): keep only the last
`.`-delimited segment of the name (`name.split('.').last().unwrap()`; the
split always yields at least one segment, so the `unwrap` cannot fail). -/
def strip_prefix (name : String) : String :=
  String.mk ((splitChar '.' name.data).getLastD [])

/-- `get_table_name` (rewrite_match.rs lines 104-109): run the
`TableNameVisitor` from the empty string (its initial `name`) and strip the
catalog/schema prefix from whatever name it holds afterwards — note the
visitor's name is still the empty string when the subtree has no table
scan. -/
def get_table_name (plan : LogicalPlan) : String :=
  strip_prefix (TableNameVisitor.visit plan "").1

/-- The rule's field registry `HashMap<String, Vec<String>>`, modelled as an
association list (only `get` is used, so ordering is irrelevant). -/
def Registry : Type := List (String × List String)

/-- `HashMap::get`. -/
def Registry.get (self : Registry) (key : String) : Option (List String) :=
  List.lookup key self

/-- `RewriteMatch::rewrite` (rewrite_match.rs lines 64-90): on a `Filter`
whose attached expressions contain a full-text call, resolve the table name,
fetch its field list from the registry (`self.fields.get(&name).unwrap()` —
a panic when the table is not registered), and map
`rewrite_preserving_name` over the node's expressions, marking the result
transformed; every other node — and a filter without a full-text call — is
returned unchanged as `Transformed::no`. -/
def RewriteMatch.rewrite (self : Registry) (plan : LogicalPlan) :
    Except DataFusionError (Transformed LogicalPlan) :=
  match plan with
  | .Filter predicate input =>
      if ((LogicalPlan.Filter predicate input).expressions.map
            (fun e => exprAny is_match_all e)).any (fun x => x) then
        let name := get_table_name (.Filter predicate input)
        match Registry.get self name with
        | none => .error (.Panic "called Option::unwrap on a None value")
        | some fields => do
            let newPred ← rewrite_preserving_name fields predicate
            pure (Transformed.yes (.Filter newPred input))
      else
        .ok (Transformed.no (.Filter predicate input))
  | p => .ok (Transformed.no p)

/-- `IngestSource` (entry.rs lines 28-35). -/
inductive IngestSource : Type
  | Bulk
  | Multi
  | JSON
  | KinesisFH
  | GCP
deriving DecidableEq, Repr

/-- `impl From<&IngestSource> for u8` (entry.rs lines 220-230). -/
def IngestSource.toU8 : IngestSource → UInt8
  | .Bulk => 1
  | .Multi => 2
  | .JSON => 3
  | .KinesisFH => 4
  | .GCP => 5

/-- `impl TryFrom<u8> for IngestSource` (entry.rs lines 232-244). -/
def IngestSource.tryFromU8 (value : UInt8) : Except String IngestSource :=
  match value.toNat with
  | 1 => .ok .Bulk
  | 2 => .ok .Multi
  | 3 => .ok .JSON
  | 4 => .ok .KinesisFH
  | 5 => .ok .GCP
  | _ => .error "not supported"

/-- `IngestEntry` (entry.rs lines 37-45). Rust `String`s (`org_id`,
`user_email`, `stream_name`) and the body `Bytes` are modelled as their
byte sequences; `thread_id` is a 64-bit `usize`, kept as a `Nat` and reduced
mod 2^64 where the encoding reads its bytes. -/
structure IngestEntry : Type where
  source : IngestSource
  thread_id : Nat
  org_id : List UInt8
  user_email : List UInt8
  stream_name : Option (List UInt8)
  body : List UInt8
deriving DecidableEq, Repr

/-- Big-endian bytes of `len as u16` (`write_u16::<BigEndian>`): the length
is truncated to 16 bits and written high byte first. -/
def u16beBytes (n : Nat) : List UInt8 :=
  [UInt8.ofNat ((n % 65536) / 256), UInt8.ofNat (n % 256)]

/-- Big-endian bytes of a 64-bit `usize` (`usize::to_be_bytes`), most
significant byte first. -/
def u64beBytes (n : Nat) : List UInt8 :=
  [UInt8.ofNat ((n / 2 ^ 56) % 256), UInt8.ofNat ((n / 2 ^ 48) % 256),
   UInt8.ofNat ((n / 2 ^ 40) % 256), UInt8.ofNat ((n / 2 ^ 32) % 256),
   UInt8.ofNat ((n / 2 ^ 24) % 256), UInt8.ofNat ((n / 2 ^ 16) % 256),
   UInt8.ofNat ((n / 2 ^ 8) % 256), UInt8.ofNat (n % 256)]

/-- `IngestEntry::into_bytes` (entry.rs lines 103-143): source tag byte,
8-byte big-endian thread id, then `org_id`, `user_email`, the optional
`stream_name` behind a 0/1 indicator byte, and the body, each
length-prefixed with a big-endian `u16` (the Rust `Result` is always `Ok`
because writing into a `Vec` cannot fail, so the payload is returned
directly). -/
def IngestEntry.into_bytes (e : IngestEntry) : List UInt8 :=
  [e.source.toU8]
    ++ u64beBytes e.thread_id
    ++ u16beBytes e.org_id.length ++ e.org_id
    ++ u16beBytes e.user_email.length ++ e.user_email
    ++ (match e.stream_name with
        | none => [0]
        | some stream_name =>
            [1] ++ u16beBytes stream_name.length ++ stream_name)
    ++ u16beBytes e.body.length ++ e.body

/-- `Cursor::read_exact` into a buffer of `k` bytes: fails when fewer than
`k` bytes remain, otherwise yields the bytes read and the rest. -/
def readExact (k : Nat) (bs : List UInt8) :
    Except String (List UInt8 × List UInt8) :=
  if bs.length < k then .error "failed to fill whole buffer"
  else .ok (bs.take k, bs.drop k)

/-- `read_u16::<BigEndian>`: two bytes, high byte first. -/
def readU16BE (bs : List UInt8) : Except String (Nat × List UInt8) :=
  match bs with
  | hi :: lo :: rest => .ok (hi.toNat * 256 + lo.toNat, rest)
  | _ => .error "failed to fill whole buffer"

/-- `IngestEntry::from_bytes` (entry.rs lines 145-217). Note the decode of
the thread id: the code reads eight bytes into `thread_id` but then computes
`thread_id[0] as usize`, i.e. it keeps only the first (most significant)
byte of the big-endian encoding. `String::from_utf8` applied to the bytes of
a `String` is the identity in the byte-sequence model. -/
def IngestEntry.from_bytes (value : List UInt8) : Except String IngestEntry := do
  let (source_buf, rest) ← readExact 1 value
  let (thread_id_buf, rest) ← readExact 8 rest
  let source ← IngestSource.tryFromU8 (source_buf.headD 0)
  let thread_id := (thread_id_buf.headD 0).toNat
  let (org_id_len, rest) ← readU16BE rest
  let (org_id, rest) ← readExact org_id_len rest
  let (user_email_len, rest) ← readU16BE rest
  let (user_email, rest) ← readExact user_email_len rest
  let (stream_name_op, rest) ← readExact 1 rest
  let (stream_name, rest) ←
    if stream_name_op.headD 0 == 0 then
      pure ((none : Option (List UInt8)), rest)
    else do
      let (stream_name_len, rest) ← readU16BE rest
      let (stream_name, rest) ← readExact stream_name_len rest
      pure (some stream_name, rest)
  let (body_len, rest) ← readU16BE rest
  let (body, _) ← readExact body_len rest
  pure { source, thread_id, org_id, user_email, stream_name, body }

/-! Spec-side predicates and shapes, used only to state the claims (they are
formalizations of the specification's words, to be compared against the
definitions embedded from the source above). -/

/-- The name is one of the three recognized full-text call names. -/
def isFullTextName (name : String) : Bool :=
  name == MATCH_ALL_UDF_NAME
    || name == MATCH_ALL_RAW_IGNORE_CASE_UDF_NAME
    || name == MATCH_ALL_RAW_UDF_NAME

/-- The expression is a string literal (a non-null `Utf8` scalar). -/
def isStringLiteral : Expr → Bool
  | .Literal (.Utf8 (some _)) => true
  | _ => false

/-- The spec's per-field comparison: an unqualified column reference for the
field, compared by `op` against the literal pattern that surrounds the
search term with `%` on both sides. -/
def fieldComparison (op : Operator) (term : String) (field : String) : Expr :=
  .BinaryExpr (.Column none field) op (.Literal (.Utf8 (some ("%" ++ term ++ "%"))))

/-- The spec's rewritten predicate for the non-empty Field Set `f :: fs`:
the per-field comparisons combined with OR left-to-right, in Field Set
order (a one-field set yields the single comparison). -/
def specDisjunction (op : Operator) (term : String) (f : String)
    (fs : List String) : Expr :=
  (fs.map (fieldComparison op term)).foldl
    (fun acc x => Expr.BinaryExpr acc .Or x) (fieldComparison op term f)

/-- The plan node does not trigger the rule: it is not a filter, or it is a
filter none of whose predicate expressions contains a full-text call. -/
def noFullTextTrigger : LogicalPlan → Bool
  | .Filter predicate _ => !(exprAny is_match_all predicate)
  | _ => true

/-! Concrete inputs used by witnesses and code-bug evaluation theorems. -/

/-- The call `match_all('open')`. -/
def mAllOpen : Expr :=
  .ScalarFunction MATCH_ALL_UDF_NAME [.Literal (.Utf8 (some "open"))]

/-- Registry registering fields `name`, `log` for table `t`. -/
def regT : Registry := [("t", ["name", "log"])]

/-- Filter `match_all('open')` directly over a scan of table `t`. -/
def planMatchT : LogicalPlan := .Filter mAllOpen (.TableScan "t")

/-- The comparison `col ILIKE '%open%'` for one field. -/
def cmpOpen (f : String) : Expr :=
  .BinaryExpr (.Column none f) .ILikeMatch (.Literal (.Utf8 (some "%open%")))

/-- What the rule produces on `planMatchT` with `regT`: the filter whose
predicate is the two-field disjunction, re-aliased to the original call's
display name, marked transformed. -/
def planMatchTOut : Transformed LogicalPlan :=
  Transformed.yes (.Filter
    (.Alias (.BinaryExpr (cmpOpen "name") .Or (cmpOpen "log")) "match_all(open)")
    (.TableScan "t"))

/-- Ingest entry with `thread_id = 1` (and small field values). -/
def entryTid1 : IngestEntry :=
  ⟨.JSON, 1, [100], [101], some [115], [10, 20]⟩

/-- The same ingest entry with `thread_id = 0`. -/
def entryTid0 : IngestEntry :=
  ⟨.JSON, 0, [100], [101], some [115], [10, 20]⟩

/-! Theorems. -/

/-- Behaviour of `f_up` on a full-text call with a string-literal argument:
an empty field list hits the `unwrap` of the empty disjunction (a panic); a
non-empty one yields the spec's disjunction, with the operator selected by
the call name. -/
theorem f_up_expand (name : String) (fields : List String) (term : String)
    (h : isFullTextName name = true) :
    MatchToFullTextMatch.f_up fields
        (.ScalarFunction name [.Literal (.Utf8 (some term))])
      = match fields with
        | [] => .error (.Panic "called Option::unwrap on a None value")
        | f :: fs =>
            .ok (Transformed.yes (specDisjunction
              (if name == MATCH_ALL_RAW_UDF_NAME then .LikeMatch else .ILikeMatch)
              term f fs)) := by
  have h' : (name == MATCH_ALL_UDF_NAME
      || name == MATCH_ALL_RAW_IGNORE_CASE_UDF_NAME
      || name == MATCH_ALL_RAW_UDF_NAME) = true := h
  cases fields with
  | nil => simp [MatchToFullTextMatch.f_up, h', disjunction]
  | cons f fs =>
      simp only [MatchToFullTextMatch.f_up, h', List.head?, List.map_cons,
        disjunction, specDisjunction, fieldComparison, if_true]
      rfl

/-- C1: a `match_all('term')` call over Field Set `[f1, f2]` is replaced by
exactly `f1 ILIKE '%term%' OR f2 ILIKE '%term%'` — one comparison per field,
in Field Set order, each an unqualified column against the `%term%` pattern,
OR-combined left-to-right; a one-field Field Set yields the single
comparison. -/
theorem c1_match_all_expansion (f1 f2 term : String) :
    MatchToFullTextMatch.f_up [f1, f2]
        (.ScalarFunction MATCH_ALL_UDF_NAME [.Literal (.Utf8 (some term))])
      = .ok (Transformed.yes (.BinaryExpr
          (fieldComparison .ILikeMatch term f1) .Or
          (fieldComparison .ILikeMatch term f2)))
    ∧ MatchToFullTextMatch.f_up [f1]
        (.ScalarFunction MATCH_ALL_UDF_NAME [.Literal (.Utf8 (some term))])
      = .ok (Transformed.yes (fieldComparison .ILikeMatch term f1)) :=
  ⟨rfl, rfl⟩

/-- C2: the comparison operator is selected solely by the call name:
`match_all_raw` expands with the case-sensitive `LikeMatch`, while
`match_all` and `match_all_raw_ignore_case` expand with the
case-insensitive `ILikeMatch`. -/
theorem c2_operator_selection (f : String) (fs : List String) (term : String) :
    MatchToFullTextMatch.f_up (f :: fs)
        (.ScalarFunction MATCH_ALL_RAW_UDF_NAME [.Literal (.Utf8 (some term))])
      = .ok (Transformed.yes (specDisjunction .LikeMatch term f fs))
    ∧ MatchToFullTextMatch.f_up (f :: fs)
        (.ScalarFunction MATCH_ALL_UDF_NAME [.Literal (.Utf8 (some term))])
      = .ok (Transformed.yes (specDisjunction .ILikeMatch term f fs))
    ∧ MatchToFullTextMatch.f_up (f :: fs)
        (.ScalarFunction MATCH_ALL_RAW_IGNORE_CASE_UDF_NAME
          [.Literal (.Utf8 (some term))])
      = .ok (Transformed.yes (specDisjunction .ILikeMatch term f fs)) :=
  ⟨rfl, rfl, rfl⟩

/-- C10: with a string-literal argument, expansion is total exactly for a
non-empty field list — building the disjunction always succeeds there —
while an empty field list makes the expander's `unwrap` of the empty
disjunction panic instead of returning an error. -/
theorem c10_empty_field_set_panics (name : String)
    (h : isFullTextName name = true) (f : String) (fs : List String)
    (term : String) :
    (∃ t, MatchToFullTextMatch.f_up (f :: fs)
        (.ScalarFunction name [.Literal (.Utf8 (some term))]) = .ok t)
    ∧ MatchToFullTextMatch.f_up []
        (.ScalarFunction name [.Literal (.Utf8 (some term))])
      = .error (.Panic "called Option::unwrap on a None value") := by
  refine ⟨⟨_, f_up_expand name (f :: fs) term h⟩, ?_⟩
  simpa using f_up_expand name [] term h

/-- Witness for C10 at `match_all`, field set `[a]`, term `x`. -/
theorem c10_empty_field_set_panics_witness :
    isFullTextName MATCH_ALL_UDF_NAME = true
    ∧ ((∃ t, MatchToFullTextMatch.f_up ["a"]
          (.ScalarFunction MATCH_ALL_UDF_NAME [.Literal (.Utf8 (some "x"))])
            = .ok t)
      ∧ MatchToFullTextMatch.f_up []
          (.ScalarFunction MATCH_ALL_UDF_NAME [.Literal (.Utf8 (some "x"))])
        = .error (.Panic "called Option::unwrap on a None value")) :=
  ⟨rfl, c10_empty_field_set_panics MATCH_ALL_UDF_NAME rfl "a" [] "x"⟩

/-- Behaviour of `f_up` on a full-text call whose sole argument is not a
string literal: the explicit `Internal` error carrying the offending
argument's rendering. -/
theorem f_up_bad_argument (name : String) (fields : List String) (arg : Expr)
    (hname : isFullTextName name = true)
    (harg : isStringLiteral arg = false) :
    MatchToFullTextMatch.f_up fields (.ScalarFunction name [arg])
      = .error (.Internal
          ("Unexpected argument type for match_all() function: " ++
            exprName arg)) := by
  have h' : (name == MATCH_ALL_UDF_NAME
      || name == MATCH_ALL_RAW_IGNORE_CASE_UDF_NAME
      || name == MATCH_ALL_RAW_UDF_NAME) = true := hname
  cases arg with
  | Literal v =>
      cases v with
      | Utf8 s =>
          cases s with
          | none => simp [MatchToFullTextMatch.f_up, h']
          | some s => simp [isStringLiteral] at harg
      | Int64 i => simp [MatchToFullTextMatch.f_up, h']
  | Column q n => simp [MatchToFullTextMatch.f_up, h']
  | BinaryExpr l op r => simp [MatchToFullTextMatch.f_up, h']
  | ScalarFunction n args => simp [MatchToFullTextMatch.f_up, h']
  | Alias e n => simp [MatchToFullTextMatch.f_up, h']

/-- C8: a full-text call whose sole argument is not a string literal makes
the expression rewriter return an explicit `Internal` error, never a
rewritten predicate; with a string-literal argument no such error is ever
produced (the result is a successful rewrite, or — for an empty field
list — a panic, but not the malformed-argument error). -/
theorem c8_argument_shape (name : String) (fields : List String) (arg : Expr)
    (hname : isFullTextName name = true)
    (harg : isStringLiteral arg = false) :
    (∃ msg, MatchToFullTextMatch.f_up fields (.ScalarFunction name [arg])
        = .error (.Internal msg))
    ∧ ∀ term msg,
        MatchToFullTextMatch.f_up fields
            (.ScalarFunction name [.Literal (.Utf8 (some term))])
          ≠ .error (.Internal msg) := by
  refine ⟨⟨_, f_up_bad_argument name fields arg hname harg⟩, ?_⟩
  intro term msg
  rw [f_up_expand name fields term hname]
  cases fields <;> simp

/-- Witness for C8 at `match_all` with field set `[a]` and the non-literal
argument `Int64 0`. -/
theorem c8_argument_shape_witness :
    isFullTextName MATCH_ALL_UDF_NAME = true
    ∧ isStringLiteral (.Literal (.Int64 0)) = false
    ∧ ((∃ msg, MatchToFullTextMatch.f_up ["a"]
          (.ScalarFunction MATCH_ALL_UDF_NAME [.Literal (.Int64 0)])
            = .error (.Internal msg))
      ∧ ∀ term msg,
          MatchToFullTextMatch.f_up ["a"]
              (.ScalarFunction MATCH_ALL_UDF_NAME
                [.Literal (.Utf8 (some term))])
            ≠ .error (.Internal msg)) :=
  ⟨rfl, rfl, c8_argument_shape MATCH_ALL_UDF_NAME ["a"] (.Literal (.Int64 0)) rfl rfl⟩

/-- C3: evaluation of the rewrite entry point on a filter containing a
full-text call over a table that has no registry entry: the
`self.fields.get(&name).unwrap()` panics instead of returning the explicit
query-compilation error the claim requires. -/
theorem c3_missing_registry_entry_panics :
    RewriteMatch.rewrite ([("other", ["x"])] : Registry) planMatchT
      = .error (.Panic "called Option::unwrap on a None value") := rfl

/-- C4: evaluation of table-scope resolution. Without any table scan under
the filter, `get_table_name` silently yields the empty string (no "no table
found" error), and the rewrite then panics at the registry lookup; when
scans exist, the first one in depth-first post-order determines the result
(stripped of its qualification). -/
theorem c4_table_resolution :
    get_table_name (.Filter mAllOpen .EmptyRelation) = ""
    ∧ RewriteMatch.rewrite regT (.Filter mAllOpen .EmptyRelation)
        = .error (.Panic "called Option::unwrap on a None value")
    ∧ get_table_name
        (.Filter mAllOpen (.Join (.TableScan "catalog.schema.s1") (.TableScan "s2")))
        = "s1"
    ∧ get_table_name
        (.Filter mAllOpen (.Join .EmptyRelation (.TableScan "s2"))) = "s2" :=
  ⟨rfl, rfl, rfl, rfl⟩

/-- C9: the envelope does not round-trip the thread id. Encoding writes the
full 8-byte big-endian `thread_id`, but decoding keeps only the first (most
significant) byte, so an entry with `thread_id = 1` decodes with
`thread_id = 0`; with `thread_id = 0` (as in the repository's own tests)
every field round-trips. -/
theorem c9_thread_id_decode_bug :
    IngestEntry.from_bytes (IngestEntry.into_bytes entryTid1) = .ok entryTid0
    ∧ entryTid1.thread_id = 1
    ∧ entryTid1 ≠ entryTid0
    ∧ IngestEntry.from_bytes (IngestEntry.into_bytes entryTid0) = .ok entryTid0 := by
  refine ⟨rfl, rfl, by decide, rfl⟩

/-- `splitChar` always yields at least one segment. -/
theorem splitChar_ne_nil (c : Char) (xs : List Char) : splitChar c xs ≠ [] := by
  induction xs with
  | nil => simp [splitChar]
  | cons x xs ih =>
      by_cases hx : x = c
      · simp [splitChar, hx]
      · simp only [splitChar, if_neg hx]
        cases hsp : splitChar c xs with
        | nil => simp
        | cons s rest => simp

/-- Splitting a separator-free list yields exactly that one segment. -/
theorem splitChar_not_mem (c : Char) (xs : List Char) (h : c ∉ xs) :
    splitChar c xs = [xs] := by
  induction xs with
  | nil => rfl
  | cons x xs ih =>
      have hx : ¬x = c := fun hxc => h (hxc ▸ List.mem_cons_self x xs)
      have hxs : c ∉ xs := fun hm => h (List.mem_cons_of_mem x hm)
      simp only [splitChar, if_neg hx, ih hxs]

/-- Splitting a list that contains the separator yields at least two
segments. -/
theorem splitChar_mem_length (c : Char) (xs : List Char) (h : c ∈ xs) :
    2 ≤ (splitChar c xs).length := by
  induction xs with
  | nil => cases h
  | cons x xs ih =>
      by_cases hx : x = c
      · have h1 := splitChar_ne_nil c xs
        simp only [splitChar, if_pos hx, List.length_cons]
        cases hsp : splitChar c xs with
        | nil => exact absurd hsp h1
        | cons s rest => simp
      · have hm : c ∈ xs := by
          cases List.mem_cons.mp h with
          | inl h' => exact absurd h'.symm hx
          | inr h' => exact h'
        simp only [splitChar, if_neg hx]
        cases hsp : splitChar c xs with
        | nil => exact absurd hsp (splitChar_ne_nil c xs)
        | cons s rest =>
            have := ih hm
            rw [hsp] at this
            simpa using this

/-- The last segment of a split is unaffected by prepending material that
ends at a separator. -/
theorem splitChar_getLast?_append (c : Char) (q t : List Char) :
    (splitChar c (q ++ c :: t)).getLast? = (splitChar c t).getLast? := by
  induction q with
  | nil =>
      simp only [List.nil_append, splitChar, if_pos rfl]
      cases hsp : splitChar c t with
      | nil => exact absurd hsp (splitChar_ne_nil c t)
      | cons s rest => simp [List.getLast?_cons_cons]
  | cons x q ih =>
      by_cases hx : x = c
      · simp only [List.cons_append, splitChar, if_pos hx]
        cases hsp : splitChar c (q ++ c :: t) with
        | nil => exact absurd hsp (splitChar_ne_nil c _)
        | cons s rest =>
            rw [← hsp, ← ih]
            rw [hsp]
            simp [List.getLast?_cons_cons]
      · simp only [List.cons_append, splitChar, if_neg hx]
        cases hsp : splitChar c (q ++ c :: t) with
        | nil => exact absurd hsp (splitChar_ne_nil c _)
        | cons s rest =>
            have hlen : 2 ≤ (splitChar c (q ++ c :: t)).length :=
              splitChar_mem_length c _ (by simp)
            rw [hsp] at hlen
            cases rest with
            | nil => simp at hlen
            | cons r rs =>
                rw [← ih, hsp]
                simp [List.getLast?_cons_cons]

/-- C6: the registry key is the unqualified table name: for a qualified
name the substring after the final `.` separator is kept (so
`catalog.schema.t` is looked up under `t`), and a name containing no `.`
is used whole. -/
theorem c6_table_name_qualification (q t : List Char) (h : '.' ∉ t) :
    strip_prefix (String.mk (q ++ '.' :: t)) = String.mk t
    ∧ strip_prefix (String.mk t) = String.mk t := by
  constructor
  · show String.mk ((splitChar '.' (q ++ '.' :: t)).getLastD []) = String.mk t
    rw [List.getLastD_eq_getLast?, splitChar_getLast?_append,
      splitChar_not_mem '.' t h]
    rfl
  · show String.mk ((splitChar '.' t).getLastD []) = String.mk t
    rw [splitChar_not_mem '.' t h]
    rfl

/-- Witness for C6 at the qualified name `catalog.schema.t`. -/
theorem c6_table_name_qualification_witness :
    '.' ∉ ['t']
    ∧ ( strip_prefix (String.mk ("catalog.schema".data ++ '.' :: ['t']))
        = String.mk ['t']
      ∧ strip_prefix (String.mk ['t']) = String.mk ['t']) :=
  ⟨by decide, c6_table_name_qualification "catalog.schema".data ['t'] (by decide)⟩

/-- C7: a plan node that is not a filter, and a filter whose predicate has
no full-text call, pass through unchanged as `Transformed::no`; in those
cases the result is independent of the field registry (no lookup can have
been consulted). -/
theorem c7_no_trigger_unchanged (reg reg' : Registry) (plan : LogicalPlan)
    (h : noFullTextTrigger plan = true) :
    RewriteMatch.rewrite reg plan = .ok (Transformed.no plan)
    ∧ RewriteMatch.rewrite reg plan = RewriteMatch.rewrite reg' plan := by
  cases plan with
  | Filter predicate input =>
      have hp : exprAny is_match_all predicate = false := by
        simpa [noFullTextTrigger] using h
      constructor <;>
        simp [RewriteMatch.rewrite, LogicalPlan.expressions, hp]
  | TableScan n => exact ⟨rfl, rfl⟩
  | Projection exprs input => exact ⟨rfl, rfl⟩
  | Join l r => exact ⟨rfl, rfl⟩
  | EmptyRelation => exact ⟨rfl, rfl⟩

/-- Witness for C7 at a projection node and at a filter whose predicate is
a plain comparison, under two different registries. -/
theorem c7_no_trigger_unchanged_witness :
    noFullTextTrigger (.Projection [] (.TableScan "t")) = true
    ∧ (RewriteMatch.rewrite ([] : Registry) (.Projection [] (.TableScan "t"))
        = .ok (Transformed.no (.Projection [] (.TableScan "t")))
      ∧ RewriteMatch.rewrite ([] : Registry) (.Projection [] (.TableScan "t"))
        = RewriteMatch.rewrite regT (.Projection [] (.TableScan "t"))) :=
  ⟨rfl, c7_no_trigger_unchanged [] regT (.Projection [] (.TableScan "t")) rfl⟩

/-- Structural induction for `Expr`, with a membership hypothesis for the
arguments of a scalar-function node (the nested `List` makes the derived
recursor inconvenient); proved by strong induction on the size. -/
theorem Expr.inductionOn (motive : Expr → Prop)
    (hlit : ∀ v, motive (.Literal v))
    (hcol : ∀ q n, motive (.Column q n))
    (hbin : ∀ l op r, motive l → motive r → motive (.BinaryExpr l op r))
    (hfn : ∀ n args, (∀ a ∈ args, motive a) → motive (.ScalarFunction n args))
    (hali : ∀ e n, motive e → motive (.Alias e n)) :
    ∀ e, motive e := by
  have key : ∀ N, ∀ e : Expr, sizeOf e ≤ N → motive e := by
    intro N
    induction N with
    | zero =>
        intro e he
        exfalso
        cases e <;> simp at he
    | succ N ih =>
        intro e he
        cases e with
        | Literal v => exact hlit v
        | Column q n => exact hcol q n
        | BinaryExpr l op r =>
            refine hbin l op r (ih l ?_) (ih r ?_) <;> (simp at he; omega)
        | ScalarFunction n args =>
            refine hfn n args (fun a ha => ih a ?_)
            have h1 := List.sizeOf_lt_of_mem ha
            simp at he
            omega
        | Alias e n =>
            refine hali e n (ih e ?_)
            simp at he
            omega
  intro e
  exact key (sizeOf e) e le_rfl

/-- `f_up` leaves a node that is not a full-text call untouched. -/
theorem f_up_no_match (fields : List String) (e : Expr)
    (h : is_match_all e = false) :
    MatchToFullTextMatch.f_up fields e = .ok (Transformed.no e) := by
  cases e with
  | ScalarFunction n args =>
      have h' : (n == MATCH_ALL_UDF_NAME
          || n == MATCH_ALL_RAW_IGNORE_CASE_UDF_NAME
          || n == MATCH_ALL_RAW_UDF_NAME) = false := by
        simpa [is_match_all] using h
      simp [MatchToFullTextMatch.f_up, h']
  | Literal v => rfl
  | Column q n => rfl
  | BinaryExpr l op r => rfl
  | Alias e n => rfl

/-- An argument list none of whose members contains a full-text call has a
`false` any-traversal. -/
theorem exprAnyList_eq_false (p : Expr → Bool) (ds : List Expr)
    (h : ∀ d ∈ ds, exprAny p d = false) : exprAnyList p ds = false := by
  induction ds with
  | nil => rfl
  | cons d ds ih =>
      simp only [exprAnyList, Bool.or_eq_false_iff]
      exact ⟨h d (List.mem_cons_self d ds),
        ih (fun d' hd' => h d' (List.mem_cons_of_mem d hd'))⟩

/-- An OR-fold of per-field pattern comparisons contains no full-text call,
provided the accumulator and the pattern do not. -/
theorem exprAny_orFold (op : Operator) (pat : Expr) (fs : List String)
    (acc : Expr) (hacc : exprAny is_match_all acc = false)
    (hpat : exprAny is_match_all pat = false) :
    exprAny is_match_all
      ((fs.map (fun field => Expr.BinaryExpr (.Column none field) op pat)).foldl
        (fun a x => Expr.BinaryExpr a .Or x) acc) = false := by
  induction fs generalizing acc with
  | nil => simpa using hacc
  | cons f fs ih =>
      simp only [List.map_cons, List.foldl_cons]
      refine ih _ ?_
      simp [exprAny, is_match_all, hacc, hpat]

/-- Collective form of `rewriteBU_no_match_all` over argument lists. -/
theorem rewriteBUList_no_match_all (fields : List String) (args : List Expr)
    (hargs : ∀ a ∈ args, ∀ t, rewriteBU fields a = .ok t →
      exprAny is_match_all t.data = false)
    (ts : List (Transformed Expr)) (h : rewriteBUList fields args = .ok ts) :
    ∀ t ∈ ts, exprAny is_match_all t.data = false := by
  induction args generalizing ts with
  | nil =>
      simp only [rewriteBUList, Pure.pure, Except.pure, Except.ok.injEq] at h
      subst h
      intro t ht
      cases ht
  | cons a as ih =>
      simp only [rewriteBUList] at h
      cases ha : rewriteBU fields a with
      | error err => rw [ha] at h; simp [Bind.bind, Except.bind, Functor.map, Except.map] at h
      | ok t0 =>
          rw [ha] at h
          cases has : rewriteBUList fields as with
          | error err => rw [has] at h; simp [Bind.bind, Except.bind, Functor.map, Except.map] at h
          | ok ts0 =>
              rw [has] at h
              simp only [Bind.bind, Except.bind, Functor.map, Except.map, Pure.pure, Except.pure, Except.ok.injEq] at h
              subst h
              intro t ht
              cases List.mem_cons.mp ht with
              | inl h' =>
                  cases h'
                  exact hargs a (List.mem_cons_self a as) _ ha
              | inr h' =>
                  exact ih
                    (fun a' ha' => hargs a' (List.mem_cons_of_mem a ha'))
                    ts0 has t h'

/-- A successful bottom-up rewrite leaves no full-text call in the result:
every full-text call is either replaced by a pattern-match disjunction or
reported as an error, and the replacement contains only columns, literals
and OR/LIKE binary nodes. -/
theorem rewriteBU_no_match_all (fields : List String) :
    ∀ e : Expr, ∀ t, rewriteBU fields e = .ok t →
      exprAny is_match_all t.data = false := by
  refine Expr.inductionOn
    (motive := fun e => ∀ t, rewriteBU fields e = .ok t →
      exprAny is_match_all t.data = false) ?_ ?_ ?_ ?_ ?_
  · intro v t h
    injection h with h
    subst h
    rfl
  · intro q n t h
    injection h with h
    subst h
    rfl
  · intro l op r ihl ihr t h
    simp only [rewriteBU] at h
    cases hl : rewriteBU fields l with
    | error err => rw [hl] at h; simp [Bind.bind, Except.bind, Functor.map, Except.map] at h
    | ok tl =>
        rw [hl] at h
        cases hr : rewriteBU fields r with
        | error err => rw [hr] at h; simp [Bind.bind, Except.bind, Functor.map, Except.map] at h
        | ok tr =>
            rw [hr] at h
            simp only [Bind.bind, Except.bind] at h
            rw [show MatchToFullTextMatch.f_up fields
                (.BinaryExpr tl.data op tr.data)
                = .ok (Transformed.no (.BinaryExpr tl.data op tr.data)) from
              f_up_no_match fields _ rfl] at h
            simp only [Bind.bind, Except.bind, Functor.map, Except.map, Pure.pure, Except.pure, Except.ok.injEq] at h
            subst h
            simp [exprAny, is_match_all, ihl tl hl, ihr tr hr]
  · intro n args ihargs t h
    simp only [rewriteBU] at h
    cases hts : rewriteBUList fields args with
    | error err => rw [hts] at h; simp [Bind.bind, Except.bind, Functor.map, Except.map] at h
    | ok ts =>
        rw [hts] at h
        simp only [Bind.bind, Except.bind] at h
        have hts_no : ∀ t' ∈ ts, exprAny is_match_all t'.data = false :=
          rewriteBUList_no_match_all fields args ihargs ts hts
        have hdata : ∀ d ∈ ts.map (fun t => t.data),
            exprAny is_match_all d = false := by
          intro d hd
          obtain ⟨t', ht', rfl⟩ := List.mem_map.mp hd
          exact hts_no t' ht'
        by_cases hn : (n == MATCH_ALL_UDF_NAME
            || n == MATCH_ALL_RAW_IGNORE_CASE_UDF_NAME
            || n == MATCH_ALL_RAW_UDF_NAME) = true
        · simp only [MatchToFullTextMatch.f_up, hn, if_true] at h
          cases hmap : ts.map (fun t => t.data) with
          | nil => rw [hmap] at h; simp [Bind.bind, Except.bind, Functor.map, Except.map] at h
          | cons arg rest =>
              rw [hmap] at h
              simp only [List.head?] at h
              cases arg with
              | Literal v =>
                  cases v with
                  | Utf8 s =>
                      cases s with
                      | none => simp [Bind.bind, Except.bind, Functor.map, Except.map] at h
                      | some item =>
                          cases fields with
                          | nil => simp [disjunction, Bind.bind, Except.bind, Functor.map, Except.map] at h
                          | cons f fs =>
                              simp only [List.map_cons, disjunction,
                                Bind.bind, Except.bind, Pure.pure,
                                Except.pure, Transformed.yes,
                                Except.ok.injEq] at h
                              subst h
                              exact exprAny_orFold _ _ fs _ (by simp
                                [exprAny, is_match_all]) rfl
                  | Int64 i => simp [Bind.bind, Except.bind, Functor.map, Except.map] at h
              | Column q nm => simp [Bind.bind, Except.bind, Functor.map, Except.map] at h
              | BinaryExpr l op r => simp [Bind.bind, Except.bind, Functor.map, Except.map] at h
              | ScalarFunction nm args' => simp [Bind.bind, Except.bind, Functor.map, Except.map] at h
              | Alias e nm => simp [Bind.bind, Except.bind, Functor.map, Except.map] at h
        · have hn' : (n == MATCH_ALL_UDF_NAME
              || n == MATCH_ALL_RAW_IGNORE_CASE_UDF_NAME
              || n == MATCH_ALL_RAW_UDF_NAME) = false :=
            Bool.not_eq_true _ ▸ (Bool.eq_false_iff.mpr (fun hc => hn hc))
          simp only [MatchToFullTextMatch.f_up, hn', Bool.false_eq_true,
            if_false, Bind.bind, Except.bind, Pure.pure, Except.pure,
            Except.ok.injEq] at h
          subst h
          simp only [exprAny, is_match_all, hn']
          simp [exprAnyList_eq_false _ _ hdata]
  · intro e n ihe t h
    simp only [rewriteBU] at h
    cases he : rewriteBU fields e with
    | error err => rw [he] at h; simp [Bind.bind, Except.bind, Functor.map, Except.map] at h
    | ok te =>
        rw [he] at h
        simp only [Bind.bind, Except.bind] at h
        rw [show MatchToFullTextMatch.f_up fields (.Alias te.data n)
            = .ok (Transformed.no (.Alias te.data n)) from
          f_up_no_match fields _ rfl] at h
        simp only [Bind.bind, Except.bind, Functor.map, Except.map, Pure.pure, Except.pure, Except.ok.injEq] at h
        subst h
        simp [exprAny, is_match_all, ihe te he]

/-- A successful name-preserving rewrite leaves no full-text call in the
resulting predicate (the re-aliasing wrapper adds none). -/
theorem rewrite_preserving_name_no_match_all (fields : List String)
    (e newE : Expr) (h : rewrite_preserving_name fields e = .ok newE) :
    exprAny is_match_all newE = false := by
  simp only [rewrite_preserving_name] at h
  cases ht : rewriteBU fields e with
  | error err => rw [ht] at h; simp [Bind.bind, Except.bind, Functor.map, Except.map] at h
  | ok t =>
      rw [ht] at h
      simp only [Bind.bind, Except.bind, Pure.pure, Except.pure,
        Except.ok.injEq] at h
      have hno := rewriteBU_no_match_all fields e t ht
      by_cases hname : (exprName t.data == exprName e) = true
      · rw [if_pos hname] at h
        subst h
        exact hno
      · rw [if_neg (by simpa using hname)] at h
        subst h
        simp [exprAny, is_match_all, hno]

/-- C5: one successful application of the rule to a filter leaves no
full-text call in the output's predicate expressions, and applying the rule
again to that output returns it unchanged as `Transformed::no`. -/
theorem c5_rewrite_idempotent (reg : Registry) (predicate : Expr)
    (input : LogicalPlan) (t : Transformed LogicalPlan)
    (h : RewriteMatch.rewrite reg (.Filter predicate input) = .ok t) :
    ((t.data).expressions.all fun e => !(exprAny is_match_all e)) = true
    ∧ RewriteMatch.rewrite reg t.data = .ok (Transformed.no t.data) := by
  by_cases htr : exprAny is_match_all predicate = true
  · simp only [RewriteMatch.rewrite, LogicalPlan.expressions, List.map_cons,
      List.map_nil, List.any_cons, List.any_nil, htr, Bool.or_false,
      if_true] at h
    cases hreg : Registry.get reg
        (get_table_name (.Filter predicate input)) with
    | none => rw [hreg] at h; simp at h
    | some fields =>
        rw [hreg] at h
        simp only [Bind.bind, Except.bind] at h
        cases hrp : rewrite_preserving_name fields predicate with
        | error err => rw [hrp] at h; simp [Bind.bind, Except.bind, Functor.map, Except.map] at h
        | ok newPred =>
            rw [hrp] at h
            simp only [Bind.bind, Except.bind, Functor.map, Except.map, Pure.pure, Except.pure, Except.ok.injEq] at h
            subst h
            have hno := rewrite_preserving_name_no_match_all fields
              predicate newPred hrp
            constructor
            · simp [Transformed.yes, LogicalPlan.expressions, hno]
            · simp [Transformed.yes, RewriteMatch.rewrite,
                LogicalPlan.expressions, hno, Transformed.no]
  · have hf : exprAny is_match_all predicate = false :=
      Bool.not_eq_true _ ▸ (Bool.eq_false_iff.mpr (fun hc => htr hc))
    simp only [RewriteMatch.rewrite, LogicalPlan.expressions, List.map_cons,
      List.map_nil, List.any_cons, List.any_nil, hf, Bool.or_false,
      Bool.false_eq_true, if_false, Except.ok.injEq] at h
    subst h
    constructor
    · simp [Transformed.no, LogicalPlan.expressions, hf]
    · simp [Transformed.no, RewriteMatch.rewrite, LogicalPlan.expressions, hf]

/-- Witness for C5 on the filter `match_all('open')` over table `t` with
fields `[name, log]`. -/
theorem c5_rewrite_idempotent_witness :
    RewriteMatch.rewrite regT (.Filter mAllOpen (.TableScan "t"))
      = .ok planMatchTOut
    ∧ (((planMatchTOut.data).expressions.all
          fun e => !(exprAny is_match_all e)) = true
      ∧ RewriteMatch.rewrite regT planMatchTOut.data
          = .ok (Transformed.no planMatchTOut.data)) :=
  ⟨rfl, c5_rewrite_idempotent regT mAllOpen (.TableScan "t") planMatchTOut rfl⟩

end OpenObserve
